import Mathlib

/-!
Verification of the XLA compilation cache
(`src/tensorflow/compiler/jit/xla_compilation_cache.h`).

Only the header is present in the repository sources; the member-function
bodies (`Compile`, `BuildSignature`, `Signature::operator==`,
`Signature::Hash::operator()`) live in a `.cc` file that is not part of the
sources, so those operations are modelled from the specification and marked
as such in their doc comments.  The data model (struct fields and their
default values, the map type) is taken from the header.
-/

namespace XlaCache

/-- Data types are opaque enumeration tags (the header uses `DataType`). -/
abbrev DataType := Nat

/-- Shape of a tensor: an ordered list of dimension sizes
(models `TensorShape`). -/
structure TensorShape where
  dims : List Nat
deriving DecidableEq

/-- Host-memory tensor: a data type, a shape, and content bytes
(models `Tensor`; the spec requires constant values to be comparable and
hashable by bytes, so the content is explicit). -/
structure Tensor where
  dtype : DataType
  shape : TensorShape
  data : List Nat
deriving DecidableEq

/-- Struct that represents a possibly-absent Tensor
(`OptionalTensor` in the header; `present` defaults to `false`). -/
structure OptionalTensor where
  present : Bool := false
  value : Tensor := ⟨0, ⟨[]⟩, []⟩
deriving DecidableEq

/-- Outcome status of an operation (models `tensorflow::Status`):
either OK, or an error with a code. Signature-construction failures use
`invalidArgument`; compiler failures may use any non-OK status. -/
inductive Status where
  | ok
  | invalidArgument (msg : String)
  | other (msg : String)
deriving DecidableEq

/-- Key that uniquely identifies a compilation output: the callable's name,
the ordered (type, shape) of every argument, and the values of the
compile-time constant arguments in argument order (header lines 79-93). -/
structure Signature where
  name : String
  arg_types : List (DataType × TensorShape)
  arg_values : List Tensor
deriving DecidableEq

/-- Element-wise comparison of two lists by a given test. -/
def listEqBy (f : α → α → Bool) : List α → List α → Bool
  | [], [] => true
  | a :: rest1, b :: rest2 => f a b && listEqBy f rest1 rest2
  | _, _ => false

/-- Structural equality of shapes. -/
def shapeEq (a b : TensorShape) : Bool := a.dims == b.dims

/-- Value equality of tensors: same data type, shape, and content bytes. -/
def tensorValueEq (a b : Tensor) : Bool :=
  a.dtype == b.dtype && shapeEq a.shape b.shape && a.data == b.data

/-- Equality of (type, shape) pairs. -/
def argTypeEq (a b : DataType × TensorShape) : Bool :=
  a.1 == b.1 && shapeEq a.2 b.2

/-- Modelled from the spec: `Signature::operator==` is declared in the header
but defined in the missing `.cc`.  Per the spec invariant, two Signatures are
equal iff `name` matches, the `arg_types` sequences are element-wise equal,
and the `arg_values` sequences are element-wise value-equal. -/
def Signature.eqSig (s1 s2 : Signature) : Bool :=
  s1.name == s2.name &&
  listEqBy argTypeEq s1.arg_types s2.arg_types &&
  listEqBy tensorValueEq s1.arg_values s2.arg_values

/-- FNV-style combination step of an incremental structural hash, truncated
to 64 bits as `uint64` arithmetic would be. -/
def hashCombine (h x : Nat) : Nat := (h * 1099511628211 + x) % 2 ^ 64

/-- Hash of a string by folding its character codes. -/
def hashString (s : String) : Nat :=
  s.data.foldl (fun h c => hashCombine h c.toNat) (14695981039346656037 % 2 ^ 64)

/-- Hash of a shape. -/
def hashShape (sh : TensorShape) : Nat :=
  sh.dims.foldl hashCombine 7

/-- Hash of a tensor by its type, shape and content bytes. -/
def hashTensor (t : Tensor) : Nat :=
  (t.data.foldl hashCombine (hashCombine (hashCombine 11 t.dtype) (hashShape t.shape)))

/-- Modelled from the spec: `Signature::Hash::operator()` is declared in the
header but defined in the missing `.cc`.  The spec requires an incremental
structural hash combinator over each field in signature order, consistent
with equality. -/
def Signature.hashSig (s : Signature) : Nat :=
  let h1 := hashString s.name
  let h2 := s.arg_types.foldl
    (fun h p => hashCombine (hashCombine h p.1) (hashShape p.2)) h1
  s.arg_values.foldl (fun h t => hashCombine h (hashTensor t)) h2

/-- Opaque identifier of an `XlaCompiler::CompilationResult` artifact. -/
abbrev CompilationResult := Nat

/-- Opaque identifier of an `xla::LocalExecutable` artifact. -/
abbrev Executable := Nat

/-- The value associated with a cache entry (header lines 102-117).
Field defaults mirror the C++ member initializers: `compiled = false`,
default-constructed OK status, default-constructed result, null executable. -/
structure Entry where
  compiled : Bool := false
  compilation_status : Status := Status.ok
  compilation_result : CompilationResult := 0
  executable : Option Executable := none
deriving DecidableEq

/-- A freshly default-constructed `Entry`, as created on insertion. -/
def Entry.init : Entry := {}

/-- What the external Compiler collaborator returns for a signature:
a status, a compilation result artifact, and an optional built executable.
The collaborator is deterministic in the signature for this model. -/
structure CompileOutcome where
  status : Status
  compilation_result : CompilationResult
  executable : Option Executable
deriving DecidableEq

/-- The external Compiler collaborator, as a function of the signature. -/
abbrev Compiler := Signature → CompileOutcome

/-- What the execution context reports for one argument: its runtime type
and shape, and — when host-addressable — its concrete constant value. -/
structure ArgInfo where
  dtype : DataType
  shape : TensorShape
  constValue : Option Tensor
deriving DecidableEq

/-- Modelled from the spec: step 2 of signature construction in the missing
`.cc`.  For argument indices `0 .. n-1` fetch the concrete value from the
context; fail with an invalid-argument error if the argument is out of
range, its value is unavailable in host memory, or its type mismatches. -/
def fetchConstantValues : List ArgInfo → Nat → Except Status (List Tensor)
  | _, 0 => .ok []
  | [], _ + 1 => .error (Status.invalidArgument "constant argument out of range")
  | a :: rest, n + 1 =>
    match a.constValue with
    | none => .error (Status.invalidArgument "constant value not in host memory")
    | some t =>
      if t.dtype = a.dtype then
        match fetchConstantValues rest n with
        | .ok ts => .ok (t :: ts)
        | .error e => .error e
      else .error (Status.invalidArgument "constant argument type mismatch")

/-- Modelled from the spec: `XlaCompilationCache::BuildSignature` is declared
in the header (lines 97-99) but defined in the missing `.cc`.  Per spec
§4.2: `arg_types` is the context's reported (type, shape) for every argument
in order; `arg_values` holds the fetched values of the first
`num_constant_args` arguments; variable-argument snapshots contribute only
through the type/shape already captured, so `variable_args` does not enter
the signature. -/
def BuildSignature (function : String) (num_constant_args : Nat)
    (variable_args : List OptionalTensor) (ctx : List ArgInfo) :
    Except Status Signature :=
  match fetchConstantValues ctx num_constant_args with
  | .error e => .error e
  | .ok vals =>
    .ok { name := function
          arg_types := ctx.map (fun a => (a.dtype, a.shape))
          arg_values := vals }

/-- Lookup in the cache map by signature equality (first matching key). -/
def findEntry : List (Signature × Entry) → Signature → Option Entry
  | [], _ => none
  | (s, e) :: rest, sig => if Signature.eqSig s sig then some e else findEntry rest sig

/-- In-place update of the entry stored for a signature (the C++ code mutates
the `Entry` object through its pointer; the key set is unchanged). -/
def updateEntry : List (Signature × Entry) → Signature → Entry → List (Signature × Entry)
  | [], _, _ => []
  | (s, e) :: rest, sig, e2 =>
    if Signature.eqSig s sig then (s, e2) :: rest
    else (s, e) :: updateEntry rest sig e2

/-- State of an `XlaCompilationCache`: the signature-to-entry map `cache_`
(header lines 119-121), plus an instrumentation log of every Compiler
collaborator invocation in order. -/
structure CacheState where
  cache_ : List (Signature × Entry)
  invLog : List Signature
deriving DecidableEq

/-- Modelled from the spec: the lookup/insert step of `Compile`, performed
under the brief global map lock.  If the signature is absent a new
default-constructed `Entry` is inserted; this is the only map mutation. -/
def lookupOrInsert (c : List (Signature × Entry)) (sig : Signature) :
    Entry × List (Signature × Entry) :=
  match findEntry c sig with
  | some e => (e, c)
  | none => (Entry.init, c ++ [(sig, Entry.init)])

/-- The entry fields written when a compilation attempt with outcome `out`
is recorded: `compiled` becomes true and status/result/executable are
published together. -/
def compiledEntryOf (out : CompileOutcome) : Entry :=
  { compiled := true
    compilation_status := out.status
    compilation_result := out.compilation_result
    executable := out.executable }

/-- What a caller reads back from a compiled entry: on success, references
to the stored `compilation_result` and (if present) `executable`; on
failure, the stored failure status. -/
def Entry.outcome (e : Entry) : Except Status (CompilationResult × Option Executable) :=
  match e.compilation_status with
  | Status.ok => .ok (e.compilation_result, e.executable)
  | s => .error s

/-- Modelled from the spec: `XlaCompilationCache::Compile` is declared in the
header (lines 63-67) but defined in the missing `.cc`.  Per spec §4.1:
build the signature (propagating construction failure with no map change),
look up or insert the entry under the global lock, then under the entry's
own lock compile if and only if `compiled` is false, record the outcome, and
return the stored outcome.  The invocation log records each collaborator
call. -/
def Compile (compiler : Compiler) (st : CacheState) (function : String)
    (num_constant_args : Nat) (variable_args : List OptionalTensor)
    (ctx : List ArgInfo) :
    Except Status (CompilationResult × Option Executable) × CacheState :=
  match BuildSignature function num_constant_args variable_args ctx with
  | .error e => (.error e, st)
  | .ok sig =>
    let p := lookupOrInsert st.cache_ sig
    if p.1.compiled then
      (p.1.outcome, { st with cache_ := p.2 })
    else
      let e2 := compiledEntryOf (compiler sig)
      (e2.outcome,
       { cache_ := updateEntry p.2 sig e2, invLog := st.invLog ++ [sig] })

/-- One call's inputs, for running sequences of calls. -/
structure CompileCall where
  function : String
  num_constant_args : Nat
  variable_args : List OptionalTensor
  ctx : List ArgInfo

/-- Run one call, returning only the updated state. -/
def compileStep (compiler : Compiler) (st : CacheState) (c : CompileCall) : CacheState :=
  (Compile compiler st c.function c.num_constant_args c.variable_args c.ctx).2

/-- Run a sequence of Compile calls. -/
def runCalls (compiler : Compiler) (st : CacheState) : List CompileCall → CacheState
  | [] => st
  | c :: rest => runCalls compiler (compileStep compiler st c) rest

/-- The keys of the cache map, in insertion order. -/
def cacheKeys (c : List (Signature × Entry)) : List Signature := c.map Prod.fst

/-- Signatures built for a sequence of calls, when every construction
succeeds. -/
def buildAll : List CompileCall → Option (List Signature)
  | [] => some []
  | c :: rest =>
    match BuildSignature c.function c.num_constant_args c.variable_args c.ctx,
          buildAll rest with
    | .ok s, some ss => some (s :: ss)
    | _, _ => none

/-- Insertion of a key into a key list if not already present; describes how
one Compile call changes the map's key set. -/
def insertKey (ks : List Signature) (s : Signature) : List Signature :=
  if s ∈ ks then ks else ks ++ [s]

/-- A collaborator that always succeeds, for concrete test inputs. -/
def cOk : Compiler :=
  fun _ => { status := Status.ok, compilation_result := 1, executable := some 2 }

/-- A collaborator that always fails, for concrete test inputs. -/
def cFail : Compiler :=
  fun _ => { status := Status.other "compile error", compilation_result := 0,
             executable := none }

/-- The empty cache state. -/
def st0 : CacheState := { cache_ := [], invLog := [] }

/-- Concrete signature of a zero-argument callable named `f`. -/
def sigF : Signature := { name := "f", arg_types := [], arg_values := [] }

/-- Concrete signature of a zero-argument callable named `g`. -/
def sigG : Signature := { name := "g", arg_types := [], arg_values := [] }

/-- Concrete call compiling `f` with no arguments. -/
def callF : CompileCall :=
  { function := "f", num_constant_args := 0, variable_args := [], ctx := [] }

/-- Concrete call compiling `g` with no arguments. -/
def callG : CompileCall :=
  { function := "g", num_constant_args := 0, variable_args := [], ctx := [] }

/-! ## Concurrency model

Spec §5 describes the two-tier locking protocol of the missing `.cc`: a
brief global map lock guarding only lookup/insert, and a per-entry lock
held for the duration of that entry's (at most one) compilation, with the
global lock released before any entry lock is taken.  Each thread runs the
Compile protocol for its signature; thread steps interleave arbitrarily. -/

/-- Control point of one thread inside a Compile call. -/
inductive Phase where
  | start
  | gotGlobal
  | releasedGlobal
  | gotEntry
  | compiling
  | done (out : Except Status (CompilationResult × Option Executable))

/-- Shared state of the cache plus all threads: the map, the global lock
holder, the per-entry lock holders, each thread's control point, and the
collaborator invocation log. -/
structure ConcState where
  cache : List (Signature × Entry)
  globalHolder : Option Nat
  entryHolder : Signature → Option Nat
  phase : Nat → Phase
  invLog : List Signature

/-- Pointwise update of a thread's phase. -/
def updPhase (f : Nat → Phase) (i : Nat) (v : Phase) : Nat → Phase :=
  fun j => if j = i then v else f j

/-- Pointwise update of one entry lock's holder. -/
def updHolder (f : Signature → Option Nat) (sg : Signature)
    (v : Option Nat) : Signature → Option Nat :=
  fun s2 => if s2 = sg then v else f s2

/-- Does the cache hold a compiled entry for this signature? -/
def hasCompiled (c : List (Signature × Entry)) (sg : Signature) : Bool :=
  match findEntry c sg with
  | some e => e.compiled
  | none => false

/-- Modelled from the spec: one interleaved step of the two-tier locking
protocol inside `Compile` (spec §5), whose body is in the missing `.cc`.
`sigOf i` is the signature thread `i` built.  The global lock guards only
the lookup/insert and is released before the entry lock is taken; the
entry lock is held from acquisition until the stored outcome is read or
the freshly compiled outcome is published. -/
inductive StepC (N : Nat) (sigOf : Nat → Signature) (compiler : Compiler) :
    ConcState → ConcState → Prop where
  | acquireGlobal (s : ConcState) (i : Nat) (hi : i < N)
      (hp : s.phase i = Phase.start) (hg : s.globalHolder = none) :
      StepC N sigOf compiler s
        { s with globalHolder := some i,
                 phase := updPhase s.phase i Phase.gotGlobal }
  | lookupInsert (s : ConcState) (i : Nat) (hi : i < N)
      (hp : s.phase i = Phase.gotGlobal) :
      StepC N sigOf compiler s
        { s with cache := (lookupOrInsert s.cache (sigOf i)).2,
                 globalHolder := none,
                 phase := updPhase s.phase i Phase.releasedGlobal }
  | acquireEntry (s : ConcState) (i : Nat) (hi : i < N)
      (hp : s.phase i = Phase.releasedGlobal)
      (he : s.entryHolder (sigOf i) = none) :
      StepC N sigOf compiler s
        { s with entryHolder := updHolder s.entryHolder (sigOf i) (some i),
                 phase := updPhase s.phase i Phase.gotEntry }
  | readHit (s : ConcState) (i : Nat) (hi : i < N) (e : Entry)
      (hp : s.phase i = Phase.gotEntry)
      (hf : findEntry s.cache (sigOf i) = some e) (hc : e.compiled = true) :
      StepC N sigOf compiler s
        { s with entryHolder := updHolder s.entryHolder (sigOf i) none,
                 phase := updPhase s.phase i (Phase.done e.outcome) }
  | beginCompile (s : ConcState) (i : Nat) (hi : i < N) (e : Entry)
      (hp : s.phase i = Phase.gotEntry)
      (hf : findEntry s.cache (sigOf i) = some e) (hc : e.compiled = false) :
      StepC N sigOf compiler s
        { s with phase := updPhase s.phase i Phase.compiling }
  | finishCompile (s : ConcState) (i : Nat) (hi : i < N)
      (hp : s.phase i = Phase.compiling) :
      StepC N sigOf compiler s
        { s with cache := updateEntry s.cache (sigOf i)
                   (compiledEntryOf (compiler (sigOf i))),
                 invLog := s.invLog ++ [sigOf i],
                 entryHolder := updHolder s.entryHolder (sigOf i) none,
                 phase := updPhase s.phase i
                   (Phase.done ((compiledEntryOf (compiler (sigOf i))).outcome)) }

/-- The initial state: empty cache, no locks held, every thread at start. -/
def initConc : ConcState :=
  { cache := [], globalHolder := none, entryHolder := fun _ => none,
    phase := fun _ => Phase.start, invLog := [] }

/-- States reachable by interleaving protocol steps from the start. -/
inductive ReachC (N : Nat) (sigOf : Nat → Signature) (compiler : Compiler) :
    ConcState → Prop where
  | init : ReachC N sigOf compiler initConc
  | step {s s2 : ConcState} (h1 : ReachC N sigOf compiler s)
      (h2 : StepC N sigOf compiler s s2) : ReachC N sigOf compiler s2

/-- Inductive invariant of the locking protocol. -/
structure ConcInv (N : Nat) (sigOf : Nat → Signature) (compiler : Compiler)
    (s : ConcState) : Prop where
  global_phase : ∀ i, s.globalHolder = some i → s.phase i = Phase.gotGlobal
  phase_global : ∀ i, s.phase i = Phase.gotGlobal → s.globalHolder = some i
  holder_phase : ∀ sg i, s.entryHolder sg = some i →
    sigOf i = sg ∧ (s.phase i = Phase.gotEntry ∨ s.phase i = Phase.compiling)
  phase_holder : ∀ i,
    (s.phase i = Phase.gotEntry ∨ s.phase i = Phase.compiling) →
    s.entryHolder (sigOf i) = some i
  entry_present : ∀ i,
    (s.phase i = Phase.releasedGlobal ∨ s.phase i = Phase.gotEntry ∨
     s.phase i = Phase.compiling) →
    ∃ e, findEntry s.cache (sigOf i) = some e
  compiling_uncompiled : ∀ i, s.phase i = Phase.compiling →
    hasCompiled s.cache (sigOf i) = false
  compiled_value : ∀ sg e, findEntry s.cache sg = some e →
    e.compiled = true → e = compiledEntryOf (compiler sg)
  count_inv : ∀ sg,
    s.invLog.count sg = (if hasCompiled s.cache sg then 1 else 0)
  done_outcome : ∀ i out, s.phase i = Phase.done out →
    out = (compiledEntryOf (compiler (sigOf i))).outcome
  done_compiled : ∀ i out, s.phase i = Phase.done out →
    hasCompiled s.cache (sigOf i) = true

/-- Concrete one-thread execution for the concurrency model: start. -/
def c9s0 : ConcState := initConc

/-- After the thread acquires the global lock. -/
def c9s1 : ConcState :=
  { c9s0 with globalHolder := some 0,
              phase := updPhase c9s0.phase 0 Phase.gotGlobal }

/-- After lookup/insert: the entry is inserted and the global lock
released. -/
def c9s2 : ConcState :=
  { c9s1 with cache := (lookupOrInsert c9s1.cache sigF).2,
              globalHolder := none,
              phase := updPhase c9s1.phase 0 Phase.releasedGlobal }

/-- After the thread acquires the entry lock. -/
def c9s3 : ConcState :=
  { c9s2 with entryHolder := updHolder c9s2.entryHolder sigF (some 0),
              phase := updPhase c9s2.phase 0 Phase.gotEntry }

/-- After the thread observes the uncompiled entry and starts compiling. -/
def c9s4 : ConcState :=
  { c9s3 with phase := updPhase c9s3.phase 0 Phase.compiling }

/-- After the compilation is published and all locks are released. -/
def c9s5 : ConcState :=
  { c9s4 with cache := updateEntry c9s4.cache sigF (compiledEntryOf (cOk sigF)),
              invLog := c9s4.invLog ++ [sigF],
              entryHolder := updHolder c9s4.entryHolder sigF none,
              phase := updPhase c9s4.phase 0
                (Phase.done ((compiledEntryOf (cOk sigF)).outcome)) }

/-! ## Basic lemmas on equality, hashing and the map operations -/

theorem listEqBy_iff {f : α → α → Bool} (hf : ∀ a b, f a b = true ↔ a = b) :
    ∀ l1 l2 : List α, listEqBy f l1 l2 = true ↔ l1 = l2 := by
  intro l1
  induction l1 with
  | nil => intro l2; cases l2 <;> simp [listEqBy]
  | cons a rest ih =>
    intro l2
    cases l2 with
    | nil => simp [listEqBy]
    | cons b rest2 =>
      simp [listEqBy, Bool.and_eq_true, hf, ih]

theorem shapeEq_iff (a b : TensorShape) : shapeEq a b = true ↔ a = b := by
  cases a; cases b
  simp [shapeEq, TensorShape.mk.injEq]

theorem tensorValueEq_iff (a b : Tensor) : tensorValueEq a b = true ↔ a = b := by
  cases a; cases b
  simp [tensorValueEq, shapeEq_iff, Tensor.mk.injEq, Bool.and_eq_true, and_assoc]

theorem argTypeEq_iff (a b : DataType × TensorShape) : argTypeEq a b = true ↔ a = b := by
  cases a; cases b
  simp [argTypeEq, shapeEq_iff, Prod.ext_iff, Bool.and_eq_true]

theorem eqSig_iff (s1 s2 : Signature) : Signature.eqSig s1 s2 = true ↔ s1 = s2 := by
  cases s1; cases s2
  simp [Signature.eqSig, Bool.and_eq_true, Signature.mk.injEq,
    listEqBy_iff argTypeEq_iff, listEqBy_iff tensorValueEq_iff, and_assoc]

theorem eqSig_refl (s : Signature) : Signature.eqSig s s = true :=
  (eqSig_iff s s).mpr rfl

theorem eqSig_eq_false_of_ne {s1 s2 : Signature} (h : s1 ≠ s2) :
    Signature.eqSig s1 s2 = false := by
  cases heq : Signature.eqSig s1 s2
  · rfl
  · exact absurd ((eqSig_iff s1 s2).mp heq) h

theorem findEntry_eq_none_iff (c : List (Signature × Entry)) (sig : Signature) :
    findEntry c sig = none ↔ sig ∉ cacheKeys c := by
  induction c with
  | nil => simp [findEntry, cacheKeys]
  | cons p rest ih =>
    obtain ⟨s, e⟩ := p
    have hkeys : cacheKeys ((s, e) :: rest) = s :: cacheKeys rest := rfl
    rw [hkeys, List.mem_cons]
    by_cases hs : s = sig
    · subst hs
      simp [findEntry, eqSig_refl]
    · rw [show findEntry ((s, e) :: rest) sig = findEntry rest sig by
        simp [findEntry, eqSig_eq_false_of_ne hs]]
      rw [ih]
      constructor
      · intro hn hmem
        rcases hmem with h1 | h2
        · exact hs h1.symm
        · exact hn h2
      · intro hn h2
        exact hn (Or.inr h2)

theorem findEntry_append_of_none {c : List (Signature × Entry)} {sig : Signature}
    (h : findEntry c sig = none) (l : List (Signature × Entry)) :
    findEntry (c ++ l) sig = findEntry l sig := by
  induction c with
  | nil => simp
  | cons p rest ih =>
    obtain ⟨s, e⟩ := p
    simp only [findEntry] at h ⊢
    cases heq : Signature.eqSig s sig with
    | false => simp only [heq] at h ⊢; simp at h ⊢; exact ih h
    | true => simp [heq] at h

theorem findEntry_append_of_some {c : List (Signature × Entry)} {sig : Signature}
    {e : Entry} (h : findEntry c sig = some e) (l : List (Signature × Entry)) :
    findEntry (c ++ l) sig = some e := by
  induction c with
  | nil => simp [findEntry] at h
  | cons p rest ih =>
    obtain ⟨s, e0⟩ := p
    simp only [findEntry] at h ⊢
    cases heq : Signature.eqSig s sig with
    | false => simp only [heq] at h ⊢; simp at h ⊢; exact ih h
    | true => simp only [heq] at h ⊢; simpa using h

theorem updateEntry_append_of_none {c : List (Signature × Entry)} {sig : Signature}
    (h : findEntry c sig = none) (x e : Entry) :
    updateEntry (c ++ [(sig, x)]) sig e = c ++ [(sig, e)] := by
  induction c with
  | nil => simp [updateEntry, eqSig_refl]
  | cons p rest ih =>
    obtain ⟨s, e0⟩ := p
    simp only [findEntry] at h
    cases heq : Signature.eqSig s sig with
    | false =>
      simp only [heq] at h
      simp at h
      simp [updateEntry, heq, ih h]
    | true => simp [heq] at h

theorem findEntry_updateEntry_ne {c : List (Signature × Entry)}
    {sig1 sig2 : Signature} (h : sig1 ≠ sig2) (e : Entry) :
    findEntry (updateEntry c sig2 e) sig1 = findEntry c sig1 := by
  induction c with
  | nil => simp [updateEntry]
  | cons p rest ih =>
    obtain ⟨s, e0⟩ := p
    cases heq : Signature.eqSig s sig2 with
    | false => simp [updateEntry, heq, findEntry, ih]
    | true =>
      have hs : s = sig2 := (eqSig_iff s sig2).mp heq
      subst hs
      simp [updateEntry, heq, findEntry, eqSig_eq_false_of_ne (fun hss => h hss.symm)]

theorem cacheKeys_updateEntry (c : List (Signature × Entry)) (sig : Signature)
    (e : Entry) : cacheKeys (updateEntry c sig e) = cacheKeys c := by
  induction c with
  | nil => simp [updateEntry]
  | cons p rest ih =>
    obtain ⟨s, e0⟩ := p
    cases heq : Signature.eqSig s sig with
    | false => simp [updateEntry, heq, cacheKeys] at ih ⊢; exact ih
    | true => simp [updateEntry, heq, cacheKeys]

/-! ## Core characterizations of one Compile call -/

/-- First call for a signature (cache miss): the compiler is invoked, the
compiled entry is appended, and its outcome is returned. -/
theorem compile_miss (compiler : Compiler) (st : CacheState) (f : String)
    (n : Nat) (va : List OptionalTensor) (ctx : List ArgInfo) (sig : Signature)
    (hbuild : BuildSignature f n va ctx = .ok sig)
    (habs : findEntry st.cache_ sig = none) :
    Compile compiler st f n va ctx =
      ((compiledEntryOf (compiler sig)).outcome,
       { cache_ := st.cache_ ++ [(sig, compiledEntryOf (compiler sig))]
         invLog := st.invLog ++ [sig] }) := by
  unfold Compile
  rw [hbuild]
  simp only [lookupOrInsert, habs]
  have hinit : Entry.init.compiled = false := rfl
  simp only [hinit, Bool.false_eq_true, if_false,
    updateEntry_append_of_none habs]

/-- Repeat call for a signature whose entry is already compiled (cache hit):
the stored outcome is returned and the state is unchanged. -/
theorem compile_hit (compiler : Compiler) (st : CacheState) (f : String)
    (n : Nat) (va : List OptionalTensor) (ctx : List ArgInfo) (sig : Signature)
    (e : Entry) (hbuild : BuildSignature f n va ctx = .ok sig)
    (hfind : findEntry st.cache_ sig = some e) (hc : e.compiled = true) :
    Compile compiler st f n va ctx = (e.outcome, st) := by
  unfold Compile
  rw [hbuild]
  simp only [lookupOrInsert, hfind]
  simp only [hc, if_true]

/-- After a miss-triggered compilation, the signature's entry in the new
cache is the compiled entry. -/
theorem findEntry_after_miss {st : CacheState} {sig : Signature}
    (habs : findEntry st.cache_ sig = none) (e : Entry) :
    findEntry (st.cache_ ++ [(sig, e)]) sig = some e := by
  rw [findEntry_append_of_none habs]
  simp [findEntry, eqSig_refl]

theorem fetchConstantValues_error {ctx : List ArgInfo} {n : Nat} {e : Status}
    (h : fetchConstantValues ctx n = .error e) :
    ∃ msg, e = Status.invalidArgument msg := by
  induction ctx generalizing n with
  | nil =>
    cases n with
    | zero => simp [fetchConstantValues] at h
    | succ m =>
      simp only [fetchConstantValues, Except.error.injEq] at h
      exact ⟨_, h.symm⟩
  | cons a rest ih =>
    cases n with
    | zero => simp [fetchConstantValues] at h
    | succ m =>
      simp only [fetchConstantValues] at h
      split at h
      · simp only [Except.error.injEq] at h
        exact ⟨_, h.symm⟩
      · split at h
        · split at h
          · simp at h
          · rename_i e2 hrest
            simp only [Except.error.injEq] at h
            subst h
            exact ih hrest
        · simp only [Except.error.injEq] at h
          exact ⟨_, h.symm⟩

theorem buildSignature_error {f : String} {n : Nat} {va : List OptionalTensor}
    {ctx : List ArgInfo} {e : Status}
    (h : BuildSignature f n va ctx = .error e) :
    ∃ msg, e = Status.invalidArgument msg := by
  unfold BuildSignature at h
  cases hf : fetchConstantValues ctx n with
  | ok vals => rw [hf] at h; simp at h
  | error e2 =>
    rw [hf] at h
    simp only [Except.error.injEq] at h
    subst h
    exact fetchConstantValues_error hf

theorem outcome_of_failed {out : CompileOutcome} (h : out.status ≠ Status.ok) :
    (compiledEntryOf out).outcome = .error out.status := by
  unfold compiledEntryOf Entry.outcome
  cases hs : out.status with
  | ok => exact absurd hs h
  | invalidArgument msg => simp
  | other msg => simp

theorem findEntry_updateEntry_self {c : List (Signature × Entry)}
    {sig : Signature} {e0 : Entry} (h : findEntry c sig = some e0) (e : Entry) :
    findEntry (updateEntry c sig e) sig = some e := by
  induction c with
  | nil => simp [findEntry] at h
  | cons p rest ih =>
    obtain ⟨s, x⟩ := p
    simp only [findEntry] at h
    cases heq : Signature.eqSig s sig with
    | false =>
      rw [heq] at h
      simp at h
      simp [updateEntry, heq, findEntry, ih h]
    | true => simp [updateEntry, heq, findEntry]

theorem findEntry_some_mem {c : List (Signature × Entry)} {sig : Signature}
    {e : Entry} (h : findEntry c sig = some e) : sig ∈ cacheKeys c := by
  by_contra hmem
  have hnone := (findEntry_eq_none_iff c sig).mpr hmem
  rw [hnone] at h
  cases h

theorem findEntry_append (c l : List (Signature × Entry)) (sig : Signature) :
    findEntry (c ++ l) sig =
      match findEntry c sig with
      | some e => some e
      | none => findEntry l sig := by
  cases hf : findEntry c sig with
  | some e => exact findEntry_append_of_some hf l
  | none => exact findEntry_append_of_none hf l

/-- One Compile call never modifies an already-compiled entry: the entry and
the per-signature invocation count are preserved. -/
theorem compileStep_preserves_compiled (compiler : Compiler) (st : CacheState)
    (c : CompileCall) (sig : Signature) (e : Entry)
    (hfind : findEntry st.cache_ sig = some e) (hc : e.compiled = true) :
    findEntry (compileStep compiler st c).cache_ sig = some e ∧
    (compileStep compiler st c).invLog.count sig = st.invLog.count sig := by
  unfold compileStep Compile
  cases hbuild : BuildSignature c.function c.num_constant_args
      c.variable_args c.ctx with
  | error e0 =>
    exact ⟨hfind, rfl⟩
  | ok sig2 =>
    simp only [lookupOrInsert]
    cases hfind2 : findEntry st.cache_ sig2 with
    | some e2 =>
      by_cases hcomp : e2.compiled = true
      · refine ⟨?_, ?_⟩
        · simp only [hcomp, if_true]
          exact hfind
        · simp [hcomp]
      · have hne : sig ≠ sig2 := by
          intro hEq
          rw [← hEq] at hfind2
          rw [hfind] at hfind2
          cases hfind2
          exact hcomp hc
        rw [if_neg hcomp]
        constructor
        · show findEntry (updateEntry st.cache_ sig2 _) sig = some e
          rw [findEntry_updateEntry_ne hne]
          exact hfind
        · show (st.invLog ++ [sig2]).count sig = st.invLog.count sig
          simp [List.count_append, List.count_cons, hne]
    | none =>
      have hne : sig ≠ sig2 := by
        intro hEq
        rw [← hEq] at hfind2
        rw [hfind] at hfind2
        cases hfind2
      have hinit : Entry.init.compiled = false := rfl
      rw [if_neg (by rw [hinit]; exact Bool.false_ne_true)]
      constructor
      · show findEntry
          (updateEntry (st.cache_ ++ [(sig2, Entry.init)]) sig2 _) sig = some e
        rw [updateEntry_append_of_none hfind2]
        exact findEntry_append_of_some hfind _
      · show (st.invLog ++ [sig2]).count sig = st.invLog.count sig
        simp [List.count_append, List.count_cons, hne]

/-- Entries found after one Compile call were either already present with
the same value, or are compiled. -/
theorem compileStep_entry_cases (compiler : Compiler) (st : CacheState)
    (c : CompileCall) (sig : Signature) (e3 : Entry)
    (h : findEntry (compileStep compiler st c).cache_ sig = some e3) :
    findEntry st.cache_ sig = some e3 ∨ e3.compiled = true := by
  unfold compileStep Compile at h
  cases hbuild : BuildSignature c.function c.num_constant_args
      c.variable_args c.ctx with
  | error e0 =>
    rw [hbuild] at h
    exact Or.inl h
  | ok sig2 =>
    rw [hbuild] at h
    simp only [lookupOrInsert] at h
    cases hfind2 : findEntry st.cache_ sig2 with
    | some e2 =>
      rw [hfind2] at h
      by_cases hcomp : e2.compiled = true
      · simp only [hcomp, if_true] at h
        exact Or.inl h
      · rw [if_neg hcomp] at h
        by_cases hss : sig = sig2
        · subst hss
          rw [show findEntry
              (updateEntry st.cache_ sig (compiledEntryOf (compiler sig))) sig
              = some (compiledEntryOf (compiler sig)) from
              findEntry_updateEntry_self hfind2 _] at h
          cases h
          exact Or.inr rfl
        · rw [show findEntry
              (updateEntry st.cache_ sig2 (compiledEntryOf (compiler sig2))) sig
              = findEntry st.cache_ sig from
              findEntry_updateEntry_ne hss _] at h
          exact Or.inl h
    | none =>
      rw [hfind2] at h
      rw [if_neg (show ¬(Entry.init.compiled = true) from by
        rw [show Entry.init.compiled = false from rfl]
        exact Bool.false_ne_true)] at h
      rw [show updateEntry (st.cache_ ++ [(sig2, Entry.init)]) sig2
          (compiledEntryOf (compiler sig2))
          = st.cache_ ++ [(sig2, compiledEntryOf (compiler sig2))] from
          updateEntry_append_of_none hfind2 _ _] at h
      rw [findEntry_append] at h
      cases hfs : findEntry st.cache_ sig with
      | some e0 =>
        rw [hfs] at h
        simp only [Option.some.injEq] at h
        subst h
        exact Or.inl rfl
      | none =>
        rw [hfs] at h
        simp only at h
        by_cases hss : sig = sig2
        · subst hss
          simp only [findEntry, eqSig_refl, if_true, Option.some.injEq] at h
          subst h
          exact Or.inr rfl
        · simp [findEntry, eqSig_eq_false_of_ne (fun hx => hss hx.symm)] at h

/-- Compiled entries survive any sequence of later calls, with no further
collaborator invocation for their signature. -/
theorem runCalls_preserves_compiled (compiler : Compiler) (st : CacheState)
    (mid : List CompileCall) (sig : Signature) (e : Entry)
    (hfind : findEntry st.cache_ sig = some e) (hc : e.compiled = true) :
    findEntry (runCalls compiler st mid).cache_ sig = some e ∧
    (runCalls compiler st mid).invLog.count sig = st.invLog.count sig := by
  induction mid generalizing st with
  | nil => exact ⟨hfind, rfl⟩
  | cons c rest ih =>
    have h1 := compileStep_preserves_compiled compiler st c sig e hfind hc
    have h2 := ih (compileStep compiler st c) h1.1
    exact ⟨h2.1, h2.2.trans h1.2⟩

/-! ## Lemmas for the concurrency model -/

theorem updPhase_same (f : Nat → Phase) (i : Nat) (v : Phase) :
    updPhase f i v i = v := by
  simp [updPhase]

theorem updPhase_ne (f : Nat → Phase) (i : Nat) (v : Phase) {j : Nat}
    (h : j ≠ i) : updPhase f i v j = f j := by
  simp [updPhase, h]

theorem updPhase_cases {f : Nat → Phase} {i j : Nat} {v w : Phase}
    (h : updPhase f i v j = w) : (j = i ∧ v = w) ∨ (j ≠ i ∧ f j = w) := by
  by_cases hji : j = i
  · subst hji
    exact Or.inl ⟨rfl, (updPhase_same f j v).symm.trans h⟩
  · exact Or.inr ⟨hji, (updPhase_ne f i v hji).symm.trans h⟩

theorem updHolder_same (f : Signature → Option Nat) (sg : Signature)
    (v : Option Nat) : updHolder f sg v sg = v := by
  simp [updHolder]

theorem updHolder_ne (f : Signature → Option Nat) (sg : Signature)
    (v : Option Nat) {s2 : Signature} (h : s2 ≠ sg) :
    updHolder f sg v s2 = f s2 := by
  simp [updHolder, h]

theorem updHolder_cases {f : Signature → Option Nat} {sg s2 : Signature}
    {v w : Option Nat} (h : updHolder f sg v s2 = w) :
    (s2 = sg ∧ v = w) ∨ (s2 ≠ sg ∧ f s2 = w) := by
  by_cases hss : s2 = sg
  · subst hss
    exact Or.inl ⟨rfl, (updHolder_same f s2 v).symm.trans h⟩
  · exact Or.inr ⟨hss, (updHolder_ne f sg v hss).symm.trans h⟩

theorem hasCompiled_of_find {c : List (Signature × Entry)} {sg : Signature}
    {e : Entry} (hf : findEntry c sg = some e) :
    hasCompiled c sg = e.compiled := by
  unfold hasCompiled
  rw [hf]

theorem findEntry_append_self {c : List (Signature × Entry)} {sg : Signature}
    (h : findEntry c sg = none) (e : Entry) :
    findEntry (c ++ [(sg, e)]) sg = some e := by
  rw [findEntry_append_of_none h]
  simp [findEntry, eqSig_refl]

theorem lookupOrInsert_preserves {c : List (Signature × Entry)}
    {sg : Signature} {e : Entry} (h : findEntry c sg = some e)
    (s : Signature) : findEntry (lookupOrInsert c s).2 sg = some e := by
  unfold lookupOrInsert
  cases hf : findEntry c s with
  | some e2 => exact h
  | none => exact findEntry_append_of_some h _

theorem lookupOrInsert_found (c : List (Signature × Entry)) (s : Signature) :
    ∃ e, findEntry (lookupOrInsert c s).2 s = some e := by
  unfold lookupOrInsert
  cases hf : findEntry c s with
  | some e2 => exact ⟨e2, hf⟩
  | none => exact ⟨Entry.init, findEntry_append_self hf Entry.init⟩

theorem lookupOrInsert_hasCompiled (c : List (Signature × Entry))
    (s sg : Signature) :
    hasCompiled (lookupOrInsert c s).2 sg = hasCompiled c sg := by
  unfold lookupOrInsert
  cases hf : findEntry c s with
  | some e2 => rfl
  | none =>
    show hasCompiled (c ++ [(s, Entry.init)]) sg = hasCompiled c sg
    unfold hasCompiled
    rw [findEntry_append]
    cases hg : findEntry c sg with
    | some e => rfl
    | none =>
      by_cases hss : sg = s
      · subst hss
        rw [show findEntry [(sg, Entry.init)] sg = some Entry.init from by
          simp [findEntry, eqSig_refl]]
        rfl
      · rw [show findEntry [(s, Entry.init)] sg = none from by
          simp [findEntry, eqSig_eq_false_of_ne (fun hx => hss hx.symm)]]

theorem lookupOrInsert_entry_cases {c : List (Signature × Entry)}
    {s sg : Signature} {e : Entry}
    (h : findEntry (lookupOrInsert c s).2 sg = some e) :
    findEntry c sg = some e ∨ e = Entry.init := by
  unfold lookupOrInsert at h
  cases hf : findEntry c s with
  | some e2 =>
    rw [hf] at h
    exact Or.inl h
  | none =>
    rw [hf] at h
    have h2 : findEntry (c ++ [(s, Entry.init)]) sg = some e := h
    rw [findEntry_append] at h2
    cases hg : findEntry c sg with
    | some e0 =>
      rw [hg] at h2
      have h3 : some e0 = some e := h2
      have h4 : e0 = e := Option.some.inj h3
      subst h4
      exact Or.inl rfl
    | none =>
      rw [hg] at h2
      have h3 : findEntry [(s, Entry.init)] sg = some e := h2
      by_cases hss : sg = s
      · subst hss
        rw [show findEntry [(sg, Entry.init)] sg = some Entry.init from by
          simp [findEntry, eqSig_refl]] at h3
        exact Or.inr (Option.some.inj h3).symm
      · rw [show findEntry [(s, Entry.init)] sg = none from by
          simp [findEntry, eqSig_eq_false_of_ne (fun hx => hss hx.symm)]] at h3
        cases h3

theorem updateEntry_hasCompiled_self {c : List (Signature × Entry)}
    {sg : Signature} {e0 : Entry} (h : findEntry c sg = some e0) (e : Entry) :
    hasCompiled (updateEntry c sg e) sg = e.compiled := by
  unfold hasCompiled
  rw [findEntry_updateEntry_self h]

theorem updateEntry_hasCompiled_ne {c : List (Signature × Entry)}
    {sg s2 : Signature} (h : sg ≠ s2) (e : Entry) :
    hasCompiled (updateEntry c s2 e) sg = hasCompiled c sg := by
  unfold hasCompiled
  rw [findEntry_updateEntry_ne h]

theorem ConcInv_init (N : Nat) (sigOf : Nat → Signature)
    (compiler : Compiler) : ConcInv N sigOf compiler initConc := by
  refine ⟨?_, ?_, ?_, ?_, ?_, ?_, ?_, ?_, ?_, ?_⟩
  · intro i h
    exact Option.noConfusion h
  · intro i h
    exact Phase.noConfusion h
  · intro sg i h
    exact Option.noConfusion h
  · intro i h
    rcases h with h | h <;> exact Phase.noConfusion h
  · intro i h
    rcases h with h | h | h <;> exact Phase.noConfusion h
  · intro i h
    exact Phase.noConfusion h
  · intro sg e hf hc
    exact Option.noConfusion hf
  · intro sg
    rfl
  · intro i out h
    exact Phase.noConfusion h
  · intro i out h
    exact Phase.noConfusion h

theorem ConcInv_step {N : Nat} {sigOf : Nat → Signature}
    {compiler : Compiler} {s s2 : ConcState}
    (hinv : ConcInv N sigOf compiler s)
    (hstep : StepC N sigOf compiler s s2) :
    ConcInv N sigOf compiler s2 := by
  obtain ⟨g1, g2, g3, g4, g5, g6, g7, g8, g9, g10⟩ := hinv
  cases hstep with
  | acquireGlobal i hi hp hg =>
    refine ⟨?_, ?_, ?_, ?_, ?_, ?_, g7, g8, ?_, ?_⟩
    · intro j h
      have h2 : i = j := Option.some.inj h
      subst h2
      exact updPhase_same s.phase i Phase.gotGlobal
    · intro j h
      by_cases hji : j = i
      · subst hji
        rfl
      · have h2 : s.phase j = Phase.gotGlobal :=
          (updPhase_ne s.phase i Phase.gotGlobal hji).symm.trans h
        have h3 := g2 j h2
        rw [hg] at h3
        exact Option.noConfusion h3
    · intro sg j h
      obtain ⟨hsg, hph⟩ := g3 sg j h
      refine ⟨hsg, ?_⟩
      by_cases hji : j = i
      · subst hji
        rcases hph with h4 | h4 <;> (rw [hp] at h4; exact Phase.noConfusion h4)
      · rcases hph with h4 | h4
        · exact Or.inl ((updPhase_ne s.phase i Phase.gotGlobal hji).trans h4)
        · exact Or.inr ((updPhase_ne s.phase i Phase.gotGlobal hji).trans h4)
    · intro j h
      rcases h with h5 | h5 <;>
        rcases updPhase_cases h5 with ⟨hji, hv⟩ | ⟨hji, hw⟩
      · exact absurd hv (fun hx => Phase.noConfusion hx)
      · exact g4 j (Or.inl hw)
      · exact absurd hv (fun hx => Phase.noConfusion hx)
      · exact g4 j (Or.inr hw)
    · intro j h
      rcases h with h5 | h5 | h5 <;>
        rcases updPhase_cases h5 with ⟨hji, hv⟩ | ⟨hji, hw⟩
      · exact absurd hv (fun hx => Phase.noConfusion hx)
      · exact g5 j (Or.inl hw)
      · exact absurd hv (fun hx => Phase.noConfusion hx)
      · exact g5 j (Or.inr (Or.inl hw))
      · exact absurd hv (fun hx => Phase.noConfusion hx)
      · exact g5 j (Or.inr (Or.inr hw))
    · intro j h
      rcases updPhase_cases h with ⟨hji, hv⟩ | ⟨hji, hw⟩
      · exact absurd hv (fun hx => Phase.noConfusion hx)
      · exact g6 j hw
    · intro j out h
      rcases updPhase_cases h with ⟨hji, hv⟩ | ⟨hji, hw⟩
      · exact absurd hv (fun hx => Phase.noConfusion hx)
      · exact g9 j out hw
    · intro j out h
      rcases updPhase_cases h with ⟨hji, hv⟩ | ⟨hji, hw⟩
      · exact absurd hv (fun hx => Phase.noConfusion hx)
      · exact g10 j out hw
  | lookupInsert i hi hp =>
    refine ⟨?_, ?_, ?_, ?_, ?_, ?_, ?_, ?_, ?_, ?_⟩
    · intro j h
      exact Option.noConfusion h
    · intro j h
      rcases updPhase_cases h with ⟨hji, hv⟩ | ⟨hji, hw⟩
      · exact absurd hv (fun hx => Phase.noConfusion hx)
      · have hgj := g2 j hw
        have hgi := g2 i hp
        rw [hgi] at hgj
        exact absurd (Option.some.inj hgj).symm hji
    · intro sg j h
      obtain ⟨hsg, hph⟩ := g3 sg j h
      refine ⟨hsg, ?_⟩
      by_cases hji : j = i
      · subst hji
        rcases hph with h4 | h4 <;> (rw [hp] at h4; exact Phase.noConfusion h4)
      · rcases hph with h4 | h4
        · exact Or.inl ((updPhase_ne s.phase i Phase.releasedGlobal hji).trans h4)
        · exact Or.inr ((updPhase_ne s.phase i Phase.releasedGlobal hji).trans h4)
    · intro j h
      rcases h with h5 | h5 <;>
        rcases updPhase_cases h5 with ⟨hji, hv⟩ | ⟨hji, hw⟩
      · exact absurd hv (fun hx => Phase.noConfusion hx)
      · exact g4 j (Or.inl hw)
      · exact absurd hv (fun hx => Phase.noConfusion hx)
      · exact g4 j (Or.inr hw)
    · intro j h
      by_cases hji : j = i
      · subst hji
        exact lookupOrInsert_found s.cache (sigOf j)
      · have h4 : s.phase j = Phase.releasedGlobal ∨
            s.phase j = Phase.gotEntry ∨ s.phase j = Phase.compiling := by
          rcases h with h5 | h5 | h5
          · exact Or.inl
              ((updPhase_ne s.phase i Phase.releasedGlobal hji).symm.trans h5)
          · exact Or.inr (Or.inl
              ((updPhase_ne s.phase i Phase.releasedGlobal hji).symm.trans h5))
          · exact Or.inr (Or.inr
              ((updPhase_ne s.phase i Phase.releasedGlobal hji).symm.trans h5))
        obtain ⟨e, he⟩ := g5 j h4
        exact ⟨e, lookupOrInsert_preserves he (sigOf i)⟩
    · intro j h
      rcases updPhase_cases h with ⟨hji, hv⟩ | ⟨hji, hw⟩
      · exact absurd hv (fun hx => Phase.noConfusion hx)
      · have h6 := g6 j hw
        calc hasCompiled (lookupOrInsert s.cache (sigOf i)).2 (sigOf j)
            = hasCompiled s.cache (sigOf j) :=
              lookupOrInsert_hasCompiled _ _ _
          _ = false := h6
    · intro sg e hf hc
      have hf2 : findEntry (lookupOrInsert s.cache (sigOf i)).2 sg = some e := hf
      rcases lookupOrInsert_entry_cases hf2 with h4 | h4
      · exact g7 sg e h4 hc
      · subst h4
        exact absurd hc (by
          rw [show Entry.init.compiled = false from rfl]
          exact Bool.false_ne_true)
    · intro sg
      show s.invLog.count sg =
        if hasCompiled (lookupOrInsert s.cache (sigOf i)).2 sg then 1 else 0
      rw [lookupOrInsert_hasCompiled]
      exact g8 sg
    · intro j out h
      rcases updPhase_cases h with ⟨hji, hv⟩ | ⟨hji, hw⟩
      · exact absurd hv (fun hx => Phase.noConfusion hx)
      · exact g9 j out hw
    · intro j out h
      rcases updPhase_cases h with ⟨hji, hv⟩ | ⟨hji, hw⟩
      · exact absurd hv (fun hx => Phase.noConfusion hx)
      · have h6 := g10 j out hw
        calc hasCompiled (lookupOrInsert s.cache (sigOf i)).2 (sigOf j)
            = hasCompiled s.cache (sigOf j) :=
              lookupOrInsert_hasCompiled _ _ _
          _ = true := h6
  | acquireEntry i hi hp he =>
    refine ⟨?_, ?_, ?_, ?_, ?_, ?_, g7, g8, ?_, ?_⟩
    · intro j h
      have h2 := g1 j h
      by_cases hji : j = i
      · subst hji
        rw [hp] at h2
        exact Phase.noConfusion h2
      · exact (updPhase_ne s.phase i Phase.gotEntry hji).trans h2
    · intro j h
      rcases updPhase_cases h with ⟨hji, hv⟩ | ⟨hji, hw⟩
      · exact absurd hv (fun hx => Phase.noConfusion hx)
      · exact g2 j hw
    · intro sg j h
      rcases updHolder_cases h with ⟨hsg, hv⟩ | ⟨hsg, hw⟩
      · have hij : i = j := Option.some.inj hv
        subst hij
        exact ⟨hsg.symm, Or.inl (updPhase_same s.phase i Phase.gotEntry)⟩
      · obtain ⟨hsg2, hph⟩ := g3 sg j hw
        refine ⟨hsg2, ?_⟩
        by_cases hji : j = i
        · subst hji
          rcases hph with h4 | h4 <;> (rw [hp] at h4; exact Phase.noConfusion h4)
        · rcases hph with h4 | h4
          · exact Or.inl ((updPhase_ne s.phase i Phase.gotEntry hji).trans h4)
          · exact Or.inr ((updPhase_ne s.phase i Phase.gotEntry hji).trans h4)
    · intro j h
      by_cases hji : j = i
      · subst hji
        exact updHolder_same s.entryHolder (sigOf j) (some j)
      · have h4 : s.phase j = Phase.gotEntry ∨ s.phase j = Phase.compiling := by
          rcases h with h5 | h5
          · exact Or.inl ((updPhase_ne s.phase i Phase.gotEntry hji).symm.trans h5)
          · exact Or.inr ((updPhase_ne s.phase i Phase.gotEntry hji).symm.trans h5)
        have h6 := g4 j h4
        by_cases hsg : sigOf j = sigOf i
        · rw [hsg] at h6
          rw [he] at h6
          exact Option.noConfusion h6
        · exact (updHolder_ne s.entryHolder (sigOf i) (some i) hsg).trans h6
    · intro j h
      by_cases hji : j = i
      · subst hji
        exact g5 j (Or.inl hp)
      · have h4 : s.phase j = Phase.releasedGlobal ∨
            s.phase j = Phase.gotEntry ∨ s.phase j = Phase.compiling := by
          rcases h with h5 | h5 | h5
          · exact Or.inl ((updPhase_ne s.phase i Phase.gotEntry hji).symm.trans h5)
          · exact Or.inr (Or.inl
              ((updPhase_ne s.phase i Phase.gotEntry hji).symm.trans h5))
          · exact Or.inr (Or.inr
              ((updPhase_ne s.phase i Phase.gotEntry hji).symm.trans h5))
        exact g5 j h4
    · intro j h
      rcases updPhase_cases h with ⟨hji, hv⟩ | ⟨hji, hw⟩
      · exact absurd hv (fun hx => Phase.noConfusion hx)
      · exact g6 j hw
    · intro j out h
      rcases updPhase_cases h with ⟨hji, hv⟩ | ⟨hji, hw⟩
      · exact absurd hv (fun hx => Phase.noConfusion hx)
      · exact g9 j out hw
    · intro j out h
      rcases updPhase_cases h with ⟨hji, hv⟩ | ⟨hji, hw⟩
      · exact absurd hv (fun hx => Phase.noConfusion hx)
      · exact g10 j out hw
  | readHit i hi e hp hf hc =>
    refine ⟨?_, ?_, ?_, ?_, ?_, ?_, g7, g8, ?_, ?_⟩
    · intro j h
      have h2 := g1 j h
      by_cases hji : j = i
      · subst hji
        rw [hp] at h2
        exact Phase.noConfusion h2
      · exact (updPhase_ne s.phase i (Phase.done e.outcome) hji).trans h2
    · intro j h
      rcases updPhase_cases h with ⟨hji, hv⟩ | ⟨hji, hw⟩
      · exact absurd hv (fun hx => Phase.noConfusion hx)
      · exact g2 j hw
    · intro sg j h
      rcases updHolder_cases h with ⟨hsg, hv⟩ | ⟨hsg, hw⟩
      · exact Option.noConfusion hv
      · obtain ⟨hsg2, hph⟩ := g3 sg j hw
        refine ⟨hsg2, ?_⟩
        by_cases hji : j = i
        · subst hji
          exact absurd hsg2.symm hsg
        · rcases hph with h4 | h4
          · exact Or.inl
              ((updPhase_ne s.phase i (Phase.done e.outcome) hji).trans h4)
          · exact Or.inr
              ((updPhase_ne s.phase i (Phase.done e.outcome) hji).trans h4)
    · intro j h
      have h4 : j ≠ i ∧ (s.phase j = Phase.gotEntry ∨
          s.phase j = Phase.compiling) := by
        rcases h with h5 | h5 <;>
          rcases updPhase_cases h5 with ⟨hji, hv⟩ | ⟨hji, hw⟩
        · exact absurd hv (fun hx => Phase.noConfusion hx)
        · exact ⟨hji, Or.inl hw⟩
        · exact absurd hv (fun hx => Phase.noConfusion hx)
        · exact ⟨hji, Or.inr hw⟩
      obtain ⟨hji, h5⟩ := h4
      have h6 := g4 j h5
      by_cases hsg : sigOf j = sigOf i
      · rw [hsg] at h6
        have h7 := g4 i (Or.inl hp)
        rw [h7] at h6
        exact absurd (Option.some.inj h6).symm hji
      · exact (updHolder_ne s.entryHolder (sigOf i) none hsg).trans h6
    · intro j h
      have h4 : j ≠ i ∧ (s.phase j = Phase.releasedGlobal ∨
          s.phase j = Phase.gotEntry ∨ s.phase j = Phase.compiling) := by
        rcases h with h5 | h5 | h5 <;>
          rcases updPhase_cases h5 with ⟨hji, hv⟩ | ⟨hji, hw⟩
        · exact absurd hv (fun hx => Phase.noConfusion hx)
        · exact ⟨hji, Or.inl hw⟩
        · exact absurd hv (fun hx => Phase.noConfusion hx)
        · exact ⟨hji, Or.inr (Or.inl hw)⟩
        · exact absurd hv (fun hx => Phase.noConfusion hx)
        · exact ⟨hji, Or.inr (Or.inr hw)⟩
      exact g5 j h4.2
    · intro j h
      rcases updPhase_cases h with ⟨hji, hv⟩ | ⟨hji, hw⟩
      · exact absurd hv (fun hx => Phase.noConfusion hx)
      · exact g6 j hw
    · intro j out h
      rcases updPhase_cases h with ⟨hji, hv⟩ | ⟨hji, hw⟩
      · subst hji
        have h5 : e.outcome = out := by injection hv
        have he2 : e = compiledEntryOf (compiler (sigOf j)) :=
          g7 (sigOf j) e hf hc
        rw [← h5, he2]
      · exact g9 j out hw
    · intro j out h
      rcases updPhase_cases h with ⟨hji, hv⟩ | ⟨hji, hw⟩
      · subst hji
        exact (hasCompiled_of_find hf).trans hc
      · exact g10 j out hw
  | beginCompile i hi e hp hf hc =>
    refine ⟨?_, ?_, ?_, ?_, ?_, ?_, g7, g8, ?_, ?_⟩
    · intro j h
      have h2 := g1 j h
      by_cases hji : j = i
      · subst hji
        rw [hp] at h2
        exact Phase.noConfusion h2
      · exact (updPhase_ne s.phase i Phase.compiling hji).trans h2
    · intro j h
      rcases updPhase_cases h with ⟨hji, hv⟩ | ⟨hji, hw⟩
      · exact absurd hv (fun hx => Phase.noConfusion hx)
      · exact g2 j hw
    · intro sg j h
      obtain ⟨hsg2, hph⟩ := g3 sg j h
      refine ⟨hsg2, ?_⟩
      by_cases hji : j = i
      · subst hji
        exact Or.inr (updPhase_same s.phase j Phase.compiling)
      · rcases hph with h4 | h4
        · exact Or.inl ((updPhase_ne s.phase i Phase.compiling hji).trans h4)
        · exact Or.inr ((updPhase_ne s.phase i Phase.compiling hji).trans h4)
    · intro j h
      by_cases hji : j = i
      · subst hji
        exact g4 j (Or.inl hp)
      · have h4 : s.phase j = Phase.gotEntry ∨ s.phase j = Phase.compiling := by
          rcases h with h5 | h5
          · exact Or.inl ((updPhase_ne s.phase i Phase.compiling hji).symm.trans h5)
          · exact Or.inr ((updPhase_ne s.phase i Phase.compiling hji).symm.trans h5)
        exact g4 j h4
    · intro j h
      by_cases hji : j = i
      · subst hji
        exact g5 j (Or.inr (Or.inl hp))
      · have h4 : s.phase j = Phase.releasedGlobal ∨
            s.phase j = Phase.gotEntry ∨ s.phase j = Phase.compiling := by
          rcases h with h5 | h5 | h5
          · exact Or.inl ((updPhase_ne s.phase i Phase.compiling hji).symm.trans h5)
          · exact Or.inr (Or.inl
              ((updPhase_ne s.phase i Phase.compiling hji).symm.trans h5))
          · exact Or.inr (Or.inr
              ((updPhase_ne s.phase i Phase.compiling hji).symm.trans h5))
        exact g5 j h4
    · intro j h
      rcases updPhase_cases h with ⟨hji, hv⟩ | ⟨hji, hw⟩
      · subst hji
        exact (hasCompiled_of_find hf).trans hc
      · exact g6 j hw
    · intro j out h
      rcases updPhase_cases h with ⟨hji, hv⟩ | ⟨hji, hw⟩
      · exact absurd hv (fun hx => Phase.noConfusion hx)
      · exact g9 j out hw
    · intro j out h
      rcases updPhase_cases h with ⟨hji, hv⟩ | ⟨hji, hw⟩
      · exact absurd hv (fun hx => Phase.noConfusion hx)
      · exact g10 j out hw
  | finishCompile i hi hp =>
    refine ⟨?_, ?_, ?_, ?_, ?_, ?_, ?_, ?_, ?_, ?_⟩
    · intro j h
      have h2 := g1 j h
      by_cases hji : j = i
      · subst hji
        rw [hp] at h2
        exact Phase.noConfusion h2
      · exact (updPhase_ne s.phase i
          (Phase.done ((compiledEntryOf (compiler (sigOf i))).outcome))
          hji).trans h2
    · intro j h
      rcases updPhase_cases h with ⟨hji, hv⟩ | ⟨hji, hw⟩
      · exact absurd hv (fun hx => Phase.noConfusion hx)
      · exact g2 j hw
    · intro sg j h
      rcases updHolder_cases h with ⟨hsg, hv⟩ | ⟨hsg, hw⟩
      · exact Option.noConfusion hv
      · obtain ⟨hsg2, hph⟩ := g3 sg j hw
        refine ⟨hsg2, ?_⟩
        by_cases hji : j = i
        · subst hji
          exact absurd (show sg = sigOf j from hsg2.symm) hsg
        · rcases hph with h4 | h4
          · exact Or.inl ((updPhase_ne s.phase i
              (Phase.done ((compiledEntryOf (compiler (sigOf i))).outcome))
              hji).trans h4)
          · exact Or.inr ((updPhase_ne s.phase i
              (Phase.done ((compiledEntryOf (compiler (sigOf i))).outcome))
              hji).trans h4)
    · intro j h
      have h4 : j ≠ i ∧ (s.phase j = Phase.gotEntry ∨
          s.phase j = Phase.compiling) := by
        rcases h with h5 | h5 <;>
          rcases updPhase_cases h5 with ⟨hji, hv⟩ | ⟨hji, hw⟩
        · exact absurd hv (fun hx => Phase.noConfusion hx)
        · exact ⟨hji, Or.inl hw⟩
        · exact absurd hv (fun hx => Phase.noConfusion hx)
        · exact ⟨hji, Or.inr hw⟩
      obtain ⟨hji, h5⟩ := h4
      have h6 := g4 j h5
      by_cases hsg : sigOf j = sigOf i
      · rw [hsg] at h6
        have h7 := g4 i (Or.inr hp)
        rw [h7] at h6
        exact absurd (Option.some.inj h6).symm hji
      · exact (updHolder_ne s.entryHolder (sigOf i) none hsg).trans h6
    · intro j h
      have h4 : j ≠ i ∧ (s.phase j = Phase.releasedGlobal ∨
          s.phase j = Phase.gotEntry ∨ s.phase j = Phase.compiling) := by
        rcases h with h5 | h5 | h5 <;>
          rcases updPhase_cases h5 with ⟨hji, hv⟩ | ⟨hji, hw⟩
        · exact absurd hv (fun hx => Phase.noConfusion hx)
        · exact ⟨hji, Or.inl hw⟩
        · exact absurd hv (fun hx => Phase.noConfusion hx)
        · exact ⟨hji, Or.inr (Or.inl hw)⟩
        · exact absurd hv (fun hx => Phase.noConfusion hx)
        · exact ⟨hji, Or.inr (Or.inr hw)⟩
      by_cases hsg : sigOf j = sigOf i
      · obtain ⟨e1, he1⟩ := g5 i (Or.inr (Or.inr hp))
        refine ⟨compiledEntryOf (compiler (sigOf i)), ?_⟩
        show findEntry (updateEntry s.cache (sigOf i)
          (compiledEntryOf (compiler (sigOf i)))) (sigOf j) =
          some (compiledEntryOf (compiler (sigOf i)))
        rw [hsg]
        exact findEntry_updateEntry_self he1 _
      · obtain ⟨e0, he0⟩ := g5 j h4.2
        refine ⟨e0, ?_⟩
        show findEntry (updateEntry s.cache (sigOf i)
          (compiledEntryOf (compiler (sigOf i)))) (sigOf j) = some e0
        rw [findEntry_updateEntry_ne hsg]
        exact he0
    · intro j h
      rcases updPhase_cases h with ⟨hji, hv⟩ | ⟨hji, hw⟩
      · exact absurd hv (fun hx => Phase.noConfusion hx)
      · have h6 := g6 j hw
        by_cases hsg : sigOf j = sigOf i
        · have h7 := g4 j (Or.inr hw)
          rw [hsg] at h7
          have h8 := g4 i (Or.inr hp)
          rw [h8] at h7
          exact absurd (Option.some.inj h7).symm hji
        · calc hasCompiled (updateEntry s.cache (sigOf i)
                (compiledEntryOf (compiler (sigOf i)))) (sigOf j)
              = hasCompiled s.cache (sigOf j) :=
                updateEntry_hasCompiled_ne hsg _
            _ = false := h6
    · intro sg e2 hfnew hc2
      by_cases hsg : sg = sigOf i
      · subst hsg
        obtain ⟨e1, he1⟩ := g5 i (Or.inr (Or.inr hp))
        have h8 : findEntry (updateEntry s.cache (sigOf i)
            (compiledEntryOf (compiler (sigOf i)))) (sigOf i) =
            some (compiledEntryOf (compiler (sigOf i))) :=
          findEntry_updateEntry_self he1 _
        have hfnew2 : findEntry (updateEntry s.cache (sigOf i)
            (compiledEntryOf (compiler (sigOf i)))) (sigOf i) = some e2 := hfnew
        rw [h8] at hfnew2
        exact (Option.some.inj hfnew2).symm
      · have hfnew2 : findEntry s.cache sg = some e2 := by
          have h9 : findEntry (updateEntry s.cache (sigOf i)
              (compiledEntryOf (compiler (sigOf i)))) sg = some e2 := hfnew
          rw [findEntry_updateEntry_ne hsg] at h9
          exact h9
        exact g7 sg e2 hfnew2 hc2
    · intro sg
      by_cases hsg : sg = sigOf i
      · subst hsg
        obtain ⟨e1, he1⟩ := g5 i (Or.inr (Or.inr hp))
        have h8 : hasCompiled (updateEntry s.cache (sigOf i)
            (compiledEntryOf (compiler (sigOf i)))) (sigOf i) = true := by
          rw [updateEntry_hasCompiled_self he1]
          rfl
        show (s.invLog ++ [sigOf i]).count (sigOf i) =
          if hasCompiled (updateEntry s.cache (sigOf i)
            (compiledEntryOf (compiler (sigOf i)))) (sigOf i) then 1 else 0
        rw [h8]
        have h9 := g8 (sigOf i)
        rw [g6 i hp] at h9
        simp only [Bool.false_eq_true, if_false] at h9
        simp [List.count_append, h9]
      · have h8 : hasCompiled (updateEntry s.cache (sigOf i)
            (compiledEntryOf (compiler (sigOf i)))) sg =
            hasCompiled s.cache sg := updateEntry_hasCompiled_ne hsg _
        have h9 : (s.invLog ++ [sigOf i]).count sg = s.invLog.count sg := by
          simp [List.count_append, List.count_cons, hsg]
        show (s.invLog ++ [sigOf i]).count sg =
          if hasCompiled (updateEntry s.cache (sigOf i)
            (compiledEntryOf (compiler (sigOf i)))) sg then 1 else 0
        rw [h8, h9]
        exact g8 sg
    · intro j out h
      rcases updPhase_cases h with ⟨hji, hv⟩ | ⟨hji, hw⟩
      · subst hji
        have h5 : (compiledEntryOf (compiler (sigOf j))).outcome = out := by
          injection hv
        exact h5.symm
      · exact g9 j out hw
    · intro j out h
      rcases updPhase_cases h with ⟨hji, hv⟩ | ⟨hji, hw⟩
      · subst hji
        obtain ⟨e1, he1⟩ := g5 j (Or.inr (Or.inr hp))
        show hasCompiled (updateEntry s.cache (sigOf j)
          (compiledEntryOf (compiler (sigOf j)))) (sigOf j) = true
        rw [updateEntry_hasCompiled_self he1]
        rfl
      · have h6 := g10 j out hw
        by_cases hsg : sigOf j = sigOf i
        · rw [hsg] at h6
          rw [g6 i hp] at h6
          exact Bool.noConfusion h6
        · calc hasCompiled (updateEntry s.cache (sigOf i)
                (compiledEntryOf (compiler (sigOf i)))) (sigOf j)
              = hasCompiled s.cache (sigOf j) :=
                updateEntry_hasCompiled_ne hsg _
            _ = true := h6

theorem ReachC_inv {N : Nat} {sigOf : Nat → Signature} {compiler : Compiler}
    {s : ConcState} (h : ReachC N sigOf compiler s) :
    ConcInv N sigOf compiler s := by
  induction h with
  | init => exact ConcInv_init N sigOf compiler
  | step h1 h2 ih => exact ConcInv_step ih h2

/-! ## Claim theorems -/

/-- Claim C4: Signature equality is exactly element-wise structural equality
(two Signatures are equal iff their names match, their `arg_types` sequences
are element-wise equal, and their `arg_values` sequences are element-wise
value-equal), and the hash is consistent with equality: equal signatures
hash identically. -/
theorem signature_structural_eq_and_hash_consistent (s1 s2 : Signature) :
    (Signature.eqSig s1 s2 = true ↔
      (s1.name = s2.name ∧ s1.arg_types = s2.arg_types ∧
       s1.arg_values = s2.arg_values)) ∧
    (Signature.eqSig s1 s2 = true →
      Signature.hashSig s1 = Signature.hashSig s2) := by
  constructor
  · rw [eqSig_iff]
    cases s1; cases s2
    simp [Signature.mk.injEq, and_assoc]
  · intro h
    rw [(eqSig_iff s1 s2).mp h]

theorem signature_structural_eq_and_hash_consistent_witness :
    Signature.hashSig { name := "f", arg_types := [(1, ⟨[2, 3]⟩)],
                        arg_values := [⟨1, ⟨[]⟩, [5]⟩] } =
    Signature.hashSig { name := "f", arg_types := [(1, ⟨[2, 3]⟩)],
                        arg_values := [⟨1, ⟨[]⟩, [5]⟩] } :=
  (signature_structural_eq_and_hash_consistent _ _).2 (eqSig_refl _)

/-- Claim C3: when signature construction fails, Compile returns that
invalid-argument error and leaves the whole cache state — map and
invocation log — unchanged, so no entry is created and the compiler
collaborator is not invoked. -/
theorem build_failure_leaves_cache_unchanged (compiler : Compiler)
    (st : CacheState) (f : String) (n : Nat) (va : List OptionalTensor)
    (ctx : List ArgInfo) (e : Status)
    (hbuild : BuildSignature f n va ctx = .error e) :
    Compile compiler st f n va ctx = (.error e, st) ∧
    ∃ msg, e = Status.invalidArgument msg := by
  constructor
  · unfold Compile
    rw [hbuild]
  · exact buildSignature_error hbuild

theorem build_failure_leaves_cache_unchanged_witness :
    Compile (fun _ => ⟨Status.ok, 1, some 2⟩) ⟨[], []⟩ "f" 1 [] [] =
      (.error (Status.invalidArgument "constant argument out of range"),
       ⟨[], []⟩) ∧
    ∃ msg, Status.invalidArgument "constant argument out of range" =
      Status.invalidArgument msg :=
  build_failure_leaves_cache_unchanged _ ⟨[], []⟩ "f" 1 [] [] _ rfl

/-- Claim C1: two Compile calls on the same cache whose built signatures are
structurally identical return the same cached outcome (status, compilation
result and executable references), and the compiler collaborator is invoked
exactly once across both calls. -/
theorem identical_signature_same_outcome_one_invocation (compiler : Compiler)
    (st : CacheState) (f1 f2 : String) (n1 n2 : Nat)
    (va1 va2 : List OptionalTensor) (ctx1 ctx2 : List ArgInfo)
    (sig1 sig2 : Signature)
    (h1 : BuildSignature f1 n1 va1 ctx1 = .ok sig1)
    (h2 : BuildSignature f2 n2 va2 ctx2 = .ok sig2)
    (hsig : Signature.eqSig sig1 sig2 = true)
    (habs : findEntry st.cache_ sig1 = none) :
    (Compile compiler st f1 n1 va1 ctx1).1 =
      (Compile compiler (Compile compiler st f1 n1 va1 ctx1).2
        f2 n2 va2 ctx2).1 ∧
    (Compile compiler (Compile compiler st f1 n1 va1 ctx1).2
        f2 n2 va2 ctx2).2.invLog = st.invLog ++ [sig1] := by
  have hs : sig1 = sig2 := (eqSig_iff _ _).mp hsig
  subst hs
  rw [compile_miss compiler st f1 n1 va1 ctx1 sig1 h1 habs]
  rw [compile_hit compiler _ f2 n2 va2 ctx2 sig1 _ h2
    (findEntry_after_miss habs _) rfl]
  exact ⟨rfl, rfl⟩

theorem identical_signature_same_outcome_one_invocation_witness :
    ((Compile (fun _ => ⟨Status.ok, 1, some 2⟩) ⟨[], []⟩ "f" 0 [] []).1 =
      (Compile (fun _ => ⟨Status.ok, 1, some 2⟩)
        (Compile (fun _ => ⟨Status.ok, 1, some 2⟩) ⟨[], []⟩ "f" 0 [] []).2
        "f" 0 [] []).1) ∧
    (Compile (fun _ => ⟨Status.ok, 1, some 2⟩)
        (Compile (fun _ => ⟨Status.ok, 1, some 2⟩) ⟨[], []⟩ "f" 0 [] []).2
        "f" 0 [] []).2.invLog = [] ++ [⟨"f", [], []⟩] :=
  identical_signature_same_outcome_one_invocation _ ⟨[], []⟩ "f" "f" 0 0 [] []
    [] [] ⟨"f", [], []⟩ ⟨"f", [], []⟩ rfl rfl (eqSig_refl _) rfl

/-- Claim C5: two Compile calls that differ only in the variable-argument
snapshot (present/absent flags or values of variable-argument slots), with
the type and shape reported for every argument unchanged, build equal
signatures; the second call is therefore a cache hit returning the same
outcome with no new collaborator invocation. -/
theorem variable_args_do_not_change_signature (compiler : Compiler)
    (st : CacheState) (f : String) (n : Nat)
    (va1 va2 : List OptionalTensor) (ctx : List ArgInfo) (sig : Signature)
    (h1 : BuildSignature f n va1 ctx = .ok sig)
    (habs : findEntry st.cache_ sig = none) :
    BuildSignature f n va2 ctx = .ok sig ∧
    (Compile compiler st f n va1 ctx).1 =
      (Compile compiler (Compile compiler st f n va1 ctx).2
        f n va2 ctx).1 ∧
    (Compile compiler (Compile compiler st f n va1 ctx).2
        f n va2 ctx).2.invLog = st.invLog ++ [sig] := by
  have h2 : BuildSignature f n va2 ctx = .ok sig := h1
  refine ⟨h2, ?_, ?_⟩
  · rw [compile_miss compiler st f n va1 ctx sig h1 habs]
    rw [compile_hit compiler _ f n va2 ctx sig _ h2
      (findEntry_after_miss habs _) rfl]
  · rw [compile_miss compiler st f n va1 ctx sig h1 habs]
    rw [compile_hit compiler _ f n va2 ctx sig _ h2
      (findEntry_after_miss habs _) rfl]

theorem variable_args_do_not_change_signature_witness :
    (BuildSignature "f" 0 [{ present := true, value := ⟨0, ⟨[]⟩, [7]⟩ }] [] =
      .ok ⟨"f", [], []⟩) ∧
    ((Compile (fun _ => ⟨Status.ok, 1, some 2⟩) ⟨[], []⟩ "f" 0 [] []).1 =
      (Compile (fun _ => ⟨Status.ok, 1, some 2⟩)
        (Compile (fun _ => ⟨Status.ok, 1, some 2⟩) ⟨[], []⟩ "f" 0 [] []).2
        "f" 0 [{ present := true, value := ⟨0, ⟨[]⟩, [7]⟩ }] []).1) ∧
    (Compile (fun _ => ⟨Status.ok, 1, some 2⟩)
        (Compile (fun _ => ⟨Status.ok, 1, some 2⟩) ⟨[], []⟩ "f" 0 [] []).2
        "f" 0 [{ present := true, value := ⟨0, ⟨[]⟩, [7]⟩ }] []).2.invLog =
      [] ++ [⟨"f", [], []⟩] :=
  variable_args_do_not_change_signature _ ⟨[], []⟩ "f" 0 []
    [{ present := true, value := ⟨0, ⟨[]⟩, [7]⟩ }] [] ⟨"f", [], []⟩ rfl rfl

/-- Claim C10: a signature not yet present in the map gets a freshly
default-constructed Entry whose `compiled` field is false (the header's
member initializer), so the first caller observes an uncompiled entry and
performs the compilation: the collaborator is invoked on this call. -/
theorem new_entry_starts_uncompiled (compiler : Compiler) (st : CacheState)
    (f : String) (n : Nat) (va : List OptionalTensor) (ctx : List ArgInfo)
    (sig : Signature) (hbuild : BuildSignature f n va ctx = .ok sig)
    (habs : findEntry st.cache_ sig = none) :
    (lookupOrInsert st.cache_ sig).1 = Entry.init ∧
    Entry.init.compiled = false ∧
    (Compile compiler st f n va ctx).2.invLog = st.invLog ++ [sig] := by
  refine ⟨?_, rfl, ?_⟩
  · simp [lookupOrInsert, habs]
  · rw [compile_miss compiler st f n va ctx sig hbuild habs]

theorem new_entry_starts_uncompiled_witness :
    (lookupOrInsert ([] : List (Signature × Entry)) ⟨"f", [], []⟩).1 =
      Entry.init ∧
    Entry.init.compiled = false ∧
    (Compile (fun _ => ⟨Status.ok, 1, some 2⟩) ⟨[], []⟩
      "f" 0 [] []).2.invLog = [] ++ [⟨"f", [], []⟩] :=
  new_entry_starts_uncompiled _ ⟨[], []⟩ "f" 0 [] [] ⟨"f", [], []⟩ rfl rfl

/-- A call whose signature construction fails leaves the state untouched. -/
theorem compileStep_err {compiler : Compiler} {st : CacheState}
    {c : CompileCall} {e : Status}
    (hbuild : BuildSignature c.function c.num_constant_args
      c.variable_args c.ctx = .error e) :
    compileStep compiler st c = st := by
  unfold compileStep Compile
  rw [hbuild]

/-- A call whose signature construction succeeds changes the key set by
inserting the built signature if absent. -/
theorem compileStep_keys_ok {compiler : Compiler} {st : CacheState}
    {c : CompileCall} {sig : Signature}
    (hbuild : BuildSignature c.function c.num_constant_args
      c.variable_args c.ctx = .ok sig) :
    cacheKeys (compileStep compiler st c).cache_ =
      insertKey (cacheKeys st.cache_) sig := by
  unfold compileStep Compile
  rw [hbuild]
  simp only [lookupOrInsert]
  cases hfind : findEntry st.cache_ sig with
  | some e2 =>
    have hmem : sig ∈ cacheKeys st.cache_ := findEntry_some_mem hfind
    by_cases hcomp : e2.compiled = true
    · simp only [hcomp, if_true]
      simp [insertKey, hmem]
    · rw [if_neg hcomp]
      show cacheKeys (updateEntry st.cache_ sig (compiledEntryOf (compiler sig)))
        = insertKey (cacheKeys st.cache_) sig
      rw [cacheKeys_updateEntry]
      simp [insertKey, hmem]
  | none =>
    have hmem : sig ∉ cacheKeys st.cache_ := (findEntry_eq_none_iff _ _).mp hfind
    rw [if_neg (show ¬(Entry.init.compiled = true) from by
      rw [show Entry.init.compiled = false from rfl]
      exact Bool.false_ne_true)]
    show cacheKeys (updateEntry (st.cache_ ++ [(sig, Entry.init)]) sig
      (compiledEntryOf (compiler sig))) = insertKey (cacheKeys st.cache_) sig
    rw [updateEntry_append_of_none hfind]
    unfold insertKey
    rw [if_neg hmem]
    simp [cacheKeys]

/-- No single Compile call ever removes or reorders keys: the old key list
is a prefix of the new one. -/
theorem compileStep_keys_grow (compiler : Compiler) (st : CacheState)
    (c : CompileCall) :
    cacheKeys st.cache_ <+: cacheKeys (compileStep compiler st c).cache_ := by
  cases hbuild : BuildSignature c.function c.num_constant_args
      c.variable_args c.ctx with
  | error e =>
    rw [compileStep_err hbuild]
  | ok sig =>
    rw [compileStep_keys_ok hbuild]
    unfold insertKey
    by_cases hmem : sig ∈ cacheKeys st.cache_
    · simp [hmem]
    · rw [if_neg hmem]
      exact List.prefix_append _ _

theorem mem_foldl_insertKey (l : List Signature) :
    ∀ (ks : List Signature) (a : Signature),
      a ∈ List.foldl insertKey ks l ↔ a ∈ ks ∨ a ∈ l := by
  induction l with
  | nil =>
    intro ks a
    simp
  | cons s rest ih =>
    intro ks a
    simp only [List.foldl_cons]
    rw [ih]
    unfold insertKey
    by_cases hmem : s ∈ ks
    · rw [if_pos hmem]
      constructor
      · rintro (h | h)
        · exact Or.inl h
        · exact Or.inr (List.mem_cons_of_mem _ h)
      · rintro (h | h)
        · exact Or.inl h
        · rcases List.mem_cons.mp h with rfl | h2
          · exact Or.inl hmem
          · exact Or.inr h2
    · rw [if_neg hmem]
      simp [List.mem_append, List.mem_cons, or_assoc]

theorem nodup_foldl_insertKey (l : List Signature) :
    ∀ ks : List Signature, ks.Nodup → (List.foldl insertKey ks l).Nodup := by
  induction l with
  | nil =>
    intro ks h
    exact h
  | cons s rest ih =>
    intro ks h
    simp only [List.foldl_cons]
    apply ih
    unfold insertKey
    by_cases hmem : s ∈ ks
    · rw [if_pos hmem]
      exact h
    · rw [if_neg hmem]
      rw [List.nodup_append]
      refine ⟨h, List.nodup_singleton s, ?_⟩
      intro a ha hb
      rw [List.mem_singleton] at hb
      subst hb
      exact hmem ha

theorem cacheKeys_runCalls (compiler : Compiler) :
    ∀ (calls : List CompileCall) (sigs : List Signature) (st : CacheState),
      buildAll calls = some sigs →
      cacheKeys (runCalls compiler st calls).cache_ =
        List.foldl insertKey (cacheKeys st.cache_) sigs := by
  intro calls
  induction calls with
  | nil =>
    intro sigs st h
    simp only [buildAll, Option.some.injEq] at h
    subst h
    rfl
  | cons c rest ih =>
    intro sigs st h
    simp only [buildAll] at h
    cases hbuild : BuildSignature c.function c.num_constant_args
        c.variable_args c.ctx with
    | error e =>
      rw [hbuild] at h
      simp at h
    | ok s =>
      rw [hbuild] at h
      cases hrest : buildAll rest with
      | none =>
        rw [hrest] at h
        simp at h
      | some ss =>
        rw [hrest] at h
        simp only [Option.some.injEq] at h
        subst h
        show cacheKeys (runCalls compiler (compileStep compiler st c)
          rest).cache_ = _
        rw [ih ss _ hrest]
        rw [compileStep_keys_ok hbuild]
        simp [List.foldl_cons]

/-- Claim C6: after a sequence of Compile calls whose signatures form
exactly K distinct Signatures, the cache holds exactly K entries, and at no
point is an entry removed or replaced: each call leaves the previous key
list as a prefix of the new one, so the map grows monotonically. -/
theorem cache_holds_exactly_distinct_signatures (compiler : Compiler)
    (calls : List CompileCall) (sigs : List Signature)
    (hbuild : buildAll calls = some sigs) :
    (runCalls compiler ⟨[], []⟩ calls).cache_.length = sigs.toFinset.card ∧
    ∀ (st : CacheState) (c : CompileCall),
      cacheKeys st.cache_ <+: cacheKeys (compileStep compiler st c).cache_ := by
  constructor
  · have hkeys := cacheKeys_runCalls compiler calls sigs ⟨[], []⟩ hbuild
    have hlen : (runCalls compiler ⟨[], []⟩ calls).cache_.length =
        (cacheKeys (runCalls compiler ⟨[], []⟩ calls).cache_).length := by
      simp [cacheKeys]
    rw [hlen, hkeys]
    have hnd : (List.foldl insertKey [] sigs).Nodup :=
      nodup_foldl_insertKey sigs [] List.nodup_nil
    have hfin : (List.foldl insertKey [] sigs).toFinset = sigs.toFinset := by
      ext a
      simp [List.mem_toFinset, mem_foldl_insertKey]
    calc (List.foldl insertKey (cacheKeys (⟨[], []⟩ : CacheState).cache_)
          sigs).length
        = (List.foldl insertKey [] sigs).toFinset.card :=
          (List.toFinset_card_of_nodup hnd).symm
      _ = sigs.toFinset.card := by rw [hfin]
  · intro st c
    exact compileStep_keys_grow compiler st c

theorem cache_holds_exactly_distinct_signatures_witness :
    (runCalls cOk ⟨[], []⟩ [callF, callG, callF]).cache_.length =
      ([sigF, sigG, sigF] : List Signature).toFinset.card ∧
    cacheKeys st0.cache_ <+: cacheKeys (compileStep cOk st0 callF).cache_ :=
  ⟨(cache_holds_exactly_distinct_signatures cOk [callF, callG, callF]
      [sigF, sigG, sigF] rfl).1,
   (cache_holds_exactly_distinct_signatures cOk [callF, callG, callF]
      [sigF, sigG, sigF] rfl).2 st0 callF⟩

/-- Claim C7: every Entry transitions at most once from Uncompiled to
Compiled, and the Compiled state is terminal: an entry whose `compiled`
field is true is never modified, replaced or reset by any later Compile
call, and any entry whose stored value changes across a call has become
compiled. -/
theorem compiled_entry_is_terminal (compiler : Compiler) (st : CacheState)
    (c : CompileCall) (sig : Signature) (e : Entry)
    (hfind : findEntry st.cache_ sig = some e) (hc : e.compiled = true) :
    findEntry (compileStep compiler st c).cache_ sig = some e ∧
    ∀ sig2 e3, findEntry (compileStep compiler st c).cache_ sig2 = some e3 →
      findEntry st.cache_ sig2 = some e3 ∨ e3.compiled = true :=
  ⟨(compileStep_preserves_compiled compiler st c sig e hfind hc).1,
   fun sig2 e3 h => compileStep_entry_cases compiler st c sig2 e3 h⟩

theorem compiled_entry_is_terminal_witness :
    findEntry (compileStep cOk
      ⟨[(sigF, compiledEntryOf (cOk sigF))], [sigF]⟩ callF).cache_ sigF =
      some (compiledEntryOf (cOk sigF)) ∧
    ∀ sig2 e3, findEntry (compileStep cOk
        ⟨[(sigF, compiledEntryOf (cOk sigF))], [sigF]⟩ callF).cache_ sig2 =
        some e3 →
      findEntry [(sigF, compiledEntryOf (cOk sigF))] sig2 = some e3 ∨
        e3.compiled = true :=
  compiled_entry_is_terminal cOk ⟨[(sigF, compiledEntryOf (cOk sigF))], [sigF]⟩
    callF sigF (compiledEntryOf (cOk sigF)) (by decide) rfl

/-- Claim C2: when the first compilation attempt for a signature fails, the
failing status is returned to the caller, and every later Compile call with
the identical signature — after any sequence of intervening calls — returns
the same failure status; the collaborator is invoked exactly once for that
signature across all of these calls. -/
theorem failed_compilation_cached_permanently (compiler : Compiler)
    (st : CacheState) (f1 f2 : String) (n1 n2 : Nat)
    (va1 va2 : List OptionalTensor) (ctx1 ctx2 : List ArgInfo)
    (sig : Signature) (mid : List CompileCall)
    (h1 : BuildSignature f1 n1 va1 ctx1 = .ok sig)
    (h2 : BuildSignature f2 n2 va2 ctx2 = .ok sig)
    (habs : findEntry st.cache_ sig = none)
    (hfail : (compiler sig).status ≠ Status.ok) :
    (Compile compiler st f1 n1 va1 ctx1).1 = .error (compiler sig).status ∧
    (Compile compiler
        (runCalls compiler (Compile compiler st f1 n1 va1 ctx1).2 mid)
        f2 n2 va2 ctx2).1 = .error (compiler sig).status ∧
    (Compile compiler
        (runCalls compiler (Compile compiler st f1 n1 va1 ctx1).2 mid)
        f2 n2 va2 ctx2).2.invLog.count sig = st.invLog.count sig + 1 := by
  have hmiss := compile_miss compiler st f1 n1 va1 ctx1 sig h1 habs
  have hcec : (compiledEntryOf (compiler sig)).compiled = true := rfl
  have hfind1 : findEntry (Compile compiler st f1 n1 va1 ctx1).2.cache_ sig =
      some (compiledEntryOf (compiler sig)) := by
    rw [hmiss]
    exact findEntry_after_miss habs _
  have hpres := runCalls_preserves_compiled compiler _ mid sig
    (compiledEntryOf (compiler sig)) hfind1 hcec
  have hhit := compile_hit compiler _ f2 n2 va2 ctx2 sig
    (compiledEntryOf (compiler sig)) h2 hpres.1 hcec
  refine ⟨?_, ?_, ?_⟩
  · rw [hmiss]
    exact outcome_of_failed hfail
  · rw [hhit]
    exact outcome_of_failed hfail
  · rw [hhit]
    show (runCalls compiler (Compile compiler st f1 n1 va1 ctx1).2
      mid).invLog.count sig = st.invLog.count sig + 1
    rw [hpres.2, hmiss]
    show (st.invLog ++ [sig]).count sig = st.invLog.count sig + 1
    simp [List.count_append]

theorem failed_compilation_cached_permanently_witness :
    (Compile cFail st0 "f" 0 [] []).1 = .error (cFail sigF).status ∧
    (Compile cFail (runCalls cFail (Compile cFail st0 "f" 0 [] []).2 [callG])
        "f" 0 [] []).1 = .error (cFail sigF).status ∧
    (Compile cFail (runCalls cFail (Compile cFail st0 "f" 0 [] []).2 [callG])
        "f" 0 [] []).2.invLog.count sigF = st0.invLog.count sigF + 1 :=
  failed_compilation_cached_permanently cFail st0 "f" "f" 0 0 [] [] [] []
    sigF [callG] rfl rfl rfl (fun hx => Status.noConfusion hx)

/-- Claim C8: changing the callable name, the argument count, any single
argument's type or shape, or any constant argument's value yields a
Signature unequal to the original; compiling both on the same cache creates
two separate entries and invokes the compiler collaborator separately for
each. -/
theorem changed_component_separate_compilation (compiler : Compiler)
    (st : CacheState) (f1 f2 : String) (n1 n2 : Nat)
    (va1 va2 : List OptionalTensor) (ctx1 ctx2 : List ArgInfo)
    (sig1 sig2 : Signature)
    (h1 : BuildSignature f1 n1 va1 ctx1 = .ok sig1)
    (h2 : BuildSignature f2 n2 va2 ctx2 = .ok sig2)
    (hne : sig1.name ≠ sig2.name ∨ sig1.arg_types ≠ sig2.arg_types ∨
           sig1.arg_values ≠ sig2.arg_values)
    (habs1 : findEntry st.cache_ sig1 = none)
    (habs2 : findEntry st.cache_ sig2 = none) :
    Signature.eqSig sig1 sig2 = false ∧
    (Compile compiler (Compile compiler st f1 n1 va1 ctx1).2
        f2 n2 va2 ctx2).2.invLog = st.invLog ++ [sig1] ++ [sig2] ∧
    cacheKeys (Compile compiler (Compile compiler st f1 n1 va1 ctx1).2
        f2 n2 va2 ctx2).2.cache_ = cacheKeys st.cache_ ++ [sig1] ++ [sig2] := by
  have hnesig : sig1 ≠ sig2 := by
    intro hEq
    subst hEq
    rcases hne with h | h | h <;> exact h rfl
  have hm1 := compile_miss compiler st f1 n1 va1 ctx1 sig1 h1 habs1
  have habs2b : findEntry (Compile compiler st f1 n1 va1 ctx1).2.cache_ sig2
      = none := by
    rw [hm1]
    show findEntry (st.cache_ ++ [(sig1, compiledEntryOf (compiler sig1))])
      sig2 = none
    rw [findEntry_append_of_none habs2]
    simp [findEntry, eqSig_eq_false_of_ne hnesig]
  have hm2 := compile_miss compiler _ f2 n2 va2 ctx2 sig2 h2 habs2b
  refine ⟨eqSig_eq_false_of_ne hnesig, ?_, ?_⟩
  · rw [hm2, hm1]
  · rw [hm2, hm1]
    show cacheKeys ((st.cache_ ++ [(sig1, compiledEntryOf (compiler sig1))])
      ++ [(sig2, compiledEntryOf (compiler sig2))]) = _
    simp [cacheKeys]

theorem changed_component_separate_compilation_witness :
    Signature.eqSig sigF sigG = false ∧
    (Compile cOk (Compile cOk st0 "f" 0 [] []).2
        "g" 0 [] []).2.invLog = st0.invLog ++ [sigF] ++ [sigG] ∧
    cacheKeys (Compile cOk (Compile cOk st0 "f" 0 [] []).2
        "g" 0 [] []).2.cache_ = cacheKeys st0.cache_ ++ [sigF] ++ [sigG] :=
  changed_component_separate_compilation cOk st0 "f" "g" 0 0 [] [] [] []
    sigF sigG rfl rfl (Or.inl (by decide)) rfl rfl

/-- Claim C9: in every state reachable by interleaving N concurrent Compile
calls, the global map lock is never held by a thread that is inside a
compilation (so compiles never block other signatures' lookups); the
compiler collaborator is invoked at most once per signature; any two
finished callers with an identical signature received identical outcomes;
and a signature some caller finished with was compiled exactly once. -/
theorem concurrent_calls_once_and_consistent (N : Nat)
    (sigOf : Nat → Signature) (compiler : Compiler) (s : ConcState)
    (hreach : ReachC N sigOf compiler s) :
    (∀ i, s.globalHolder = some i → s.phase i ≠ Phase.compiling) ∧
    (∀ sg, s.invLog.count sg ≤ 1) ∧
    (∀ i j out1 out2, s.phase i = Phase.done out1 →
      s.phase j = Phase.done out2 → sigOf i = sigOf j → out1 = out2) ∧
    (∀ i out, s.phase i = Phase.done out → s.invLog.count (sigOf i) = 1) := by
  have hinv := ReachC_inv hreach
  refine ⟨?_, ?_, ?_, ?_⟩
  · intro i hg hc
    have h2 := hinv.global_phase i hg
    rw [hc] at h2
    exact Phase.noConfusion h2
  · intro sg
    rw [hinv.count_inv sg]
    by_cases h : hasCompiled s.cache sg = true
    · simp [h]
    · simp [h]
  · intro i j out1 out2 h1 h2 hs
    rw [hinv.done_outcome i out1 h1, hinv.done_outcome j out2 h2, hs]
  · intro i out h
    rw [hinv.count_inv (sigOf i)]
    rw [hinv.done_compiled i out h]
    rfl

theorem concurrent_calls_once_and_consistent_witness :
    c9s5.invLog.count sigF = 1 := by
  have hr : ReachC 1 (fun _ => sigF) cOk c9s5 :=
    ReachC.step (ReachC.step (ReachC.step (ReachC.step (ReachC.step
      ReachC.init
      (StepC.acquireGlobal c9s0 0 (by decide) rfl rfl))
      (StepC.lookupInsert c9s1 0 (by decide) rfl))
      (StepC.acquireEntry c9s2 0 (by decide) rfl rfl))
      (StepC.beginCompile c9s3 0 (by decide) Entry.init rfl rfl rfl))
      (StepC.finishCompile c9s4 0 (by decide) rfl)
  exact (concurrent_calls_once_and_consistent 1 (fun _ => sigF) cOk c9s5
    hr).2.2.2 0 ((compiledEntryOf (cOk sigF)).outcome) rfl

end XlaCache
